import Mathlib

/-!
Verification of the livestream-dl capture engine (`src/livestream.rs`,
`src/livestream/mod.rs`) against its natural-language specification.

Machine integers (`u64`) are modelled as `Nat`; byte buffers (`Vec<u8>`)
as `List Nat`; Rust `String`s and `reqwest::Url`s as `List Char`.
External collaborators whose sources are not part of the two core files
(the `m3u8_rs` playlist records, `Encryption`, `MediaFormat`,
`utils::make_absolute_url`) are modelled from the specification's
interface description, as noted on each definition.
-/

namespace LSDL

/-- Characters of a Rust `String`. -/
abbrev Str := List Char

/-- A `reqwest::Url`, modelled by its textual form. -/
abbrev Url := List Char

/-- A byte buffer (`Vec<u8>`), modelled as a list of naturals. -/
abbrev Bytes := List Nat

/-- Strict lexicographic (character-wise) order on strings, the order in
which on-disk file names sort. -/
def lexLtB : Str → Str → Bool
  | [], [] => false
  | [], _ :: _ => true
  | _ :: _, [] => false
  | a :: l₁, b :: l₂ => if a < b then true else if a = b then lexLtB l₁ l₂ else false

/-- The character for decimal digit `d` (valid for `d < 10`). -/
def digitChar (d : Nat) : Char := Char.ofNat (48 + d)

/-- Most-significant-first base-10 rendering of `n` with exactly `k`
digits: the canonical zero-padded decimal of `n` whenever `n < 10 ^ k`. -/
def padDec : Nat → Nat → List Char
  | 0, _ => []
  | k + 1, n => digitChar (n / 10 ^ k) :: padDec k (n % 10 ^ k)

/-- Number of decimal digits of `n`, fuel-driven (`fuel ≥ n` suffices). -/
def numDigitsAux : Nat → Nat → Nat
  | 0, _ => 1
  | fuel + 1, n => if n < 10 then 1 else numDigitsAux fuel (n / 10) + 1

/-- Number of decimal digits of `n` (`numDigits 0 = 1`). -/
def numDigits (n : Nat) : Nat := numDigitsAux n n

/-- Plain decimal rendering of `n`, as Rust `format!("{}", n)`. -/
def decimal (n : Nat) : Str := padDec (numDigits n) n

/-- Decimal rendering of `n` zero-padded to minimum width 10, as Rust
`format!("{:010}", n)`. -/
def fmt010 (n : Nat) : Str := padDec (max 10 (numDigits n)) n

/-- `m3u8_rs::ByteRange`: `length: u64`, `offset: Option<u64>`.
Modelled from the spec: the playlist grammar parser is an external
collaborator; only these two fields are consumed by the core. -/
structure ByteRange where
  length : Nat
  offset : Option Nat
deriving DecidableEq

/-- `Stream` (src/livestream.rs lines 62-70): identity of a logical
track. -/
inductive Stream where
  | main
  | video (nm : Str) (lang : Option Str)
  | audio (nm : Str) (lang : Option Str)
  | subtitle (nm : Str) (lang : Option Str)
deriving DecidableEq

/-- `Segment` (src/livestream.rs lines 73-85): identity of one fetchable
unit. `HashableByteRange` compares by `(length, offset)` only, exactly as
`ByteRange` itself does, so it is modelled by `ByteRange` directly. -/
inductive Segment where
  | initialization (url : Url) (byteRange : Option ByteRange)
  | sequence (url : Url) (byteRange : Option ByteRange) (disconSeq : Nat) (seq : Nat)
deriving DecidableEq

/-- `Segment::url` (src/livestream.rs lines 115-120). -/
def Segment.urlOf : Segment → Url
  | .initialization u _ => u
  | .sequence u _ _ _ => u

/-- `Segment::id` (src/livestream.rs lines 123-132):
`"init"` for initialization segments, `format!("d{:010}s{:010}", d, s)`
for sequence segments. -/
def Segment.idStr : Segment → Str
  | .initialization _ _ => ['i', 'n', 'i', 't']
  | .sequence _ _ d s => 'd' :: fmt010 d ++ 's' :: fmt010 s

/-- `format!("bytes={}-{}", a, b)`. -/
def bytesHeader (a b : Nat) : Str :=
  ['b', 'y', 't', 'e', 's', '='] ++ decimal a ++ '-' :: decimal b

/-- `Segment::byte_range` (src/livestream.rs lines 134-156):
`bytes=<start>-<start + length.saturating_sub(1)>` with the offset
defaulting to 0; `None` when the segment carries no byte range.
`Nat` subtraction is saturating, matching `u64::saturating_sub`. -/
def Segment.byteRangeStr : Segment → Option Str
  | .initialization _ Option.none => Option.none
  | .sequence _ Option.none _ _ => Option.none
  | .initialization _ (Option.some b) =>
      Option.some (bytesHeader (b.offset.getD 0) (b.offset.getD 0 + (b.length - 1)))
  | .sequence _ (Option.some b) _ _ =>
      Option.some (bytesHeader (b.offset.getD 0) (b.offset.getD 0 + (b.length - 1)))

/-- `<Stream as Display>::fmt` (src/livestream.rs lines 181-190). -/
def Stream.displayStr : Stream → Str
  | .main => ['m', 'a', 'i', 'n']
  | .video n _ => ['v', 'i', 'd', 'e', 'o', '_'] ++ n
  | .audio n _ => ['a', 'u', 'd', 'i', 'o', '_'] ++ n
  | .subtitle n _ => ['s', 'u', 'b', 't', 'i', 't', 'l', 'e', '_'] ++ n

/-- `Stream::extension` (src/livestream.rs lines 161-168). -/
def Stream.extensionStr : Stream → Str
  | .main => ['t', 's']
  | .video _ _ => ['t', 's']
  | .audio _ _ => ['m', '4', 'a']
  | .subtitle _ _ => ['v', 't', 't']

/-- On-disk file name of a saved sequence segment with ordering key
`(d, s)` and extension `ext`:
`format!("segment_{}_{}.{}", stream, segment.id(), ext)`
(src/livestream.rs lines 521-526, src/livestream/mod.rs lines 320-325;
the older code takes `ext` from the stream, the newer from the detected
media format — both are covered by the `ext` parameter). -/
def fileName (stream : Stream) (d s : Nat) (ext : Str) : Str :=
  ['s', 'e', 'g', 'm', 'e', 'n', 't', '_'] ++ stream.displayStr ++
    '_' :: Segment.idStr (.sequence [] Option.none d s) ++ '.' :: ext

/-- Modelled from the spec: `utils::make_absolute_url` (module not under
src/) resolves a playlist-relative URI against the entry URL. No claim
depends on URL syntax, so resolution is modelled abstractly as
concatenation of the base with the relative part. -/
def makeAbsoluteUrl (base rel : Url) : Url := base ++ rel

/-- `m3u8_rs::Key` metadata attached to a media segment. Modelled from
the spec: the playlist grammar parser is an external collaborator; the
core only hands this record to the Encryption collaborator. -/
structure HlsKey where
  method : Str
  uri : Option Str
  iv : Option Str
deriving DecidableEq

/-- `m3u8_rs::Map` (`#EXT-X-MAP` initialization metadata). Modelled from
the spec, as for `HlsKey`. -/
structure MediaMap where
  uri : Str
  byteRange : Option ByteRange
deriving DecidableEq

/-- One `m3u8_rs::MediaSegment`, restricted to the fields the poller
consumes. Modelled from the spec, as for `HlsKey`. -/
structure MediaSegment where
  uri : Str
  byteRange : Option ByteRange
  discontinuity : Bool
  key : Option HlsKey
  map : Option MediaMap
deriving DecidableEq

/-- One fetched `m3u8_rs::MediaPlaylist`, restricted to the fields the
poller consumes. Modelled from the spec, as for `HlsKey`. -/
structure MediaPlaylist where
  mediaSequence : Nat
  discontinuitySequence : Nat
  endList : Bool
  segments : List MediaSegment
deriving DecidableEq

/-- Modelled from the spec: the `Encryption` collaborator (module not
under src/) — `None`, or a key+IV capability resolved by
`Encryption::new(client, key, playlist_url, seq)` from the declared key
metadata. -/
inductive Encryption where
  | none
  | resolved (key : HlsKey) (playlistUrl : Url) (seq : Nat)
deriving DecidableEq

/-- Lexicographic `≤` on ordering keys
`(discontinuity_generation, sequence_number)`, i.e. Rust's derived
`Ord` on `(u64, u64)`. -/
def keyLe (a b : Nat × Nat) : Prop :=
  a.1 < b.1 ∨ (a.1 = b.1 ∧ a.2 ≤ b.2)

/-- Lexicographic `<` on ordering keys. -/
def keyLt (a b : Nat × Nat) : Prop :=
  a.1 < b.1 ∨ (a.1 = b.1 ∧ a.2 < b.2)

instance (a b : Nat × Nat) : Decidable (keyLe a b) := by
  unfold keyLe; exact inferInstance

instance (a b : Nat × Nat) : Decidable (keyLt a b) := by
  unfold keyLt; exact inferInstance

/-- One emitted fetch request `(Stream, Segment, Encryption)`, the
payload sent over the fan-in queue. -/
abbrev Emit := Stream × Segment × Encryption

/-- The per-stream poller state that survives across loop iterations:
`last_seg` and `init_downloaded` (src/livestream.rs lines 352-353). -/
structure WalkState where
  lastSeg : Option (Nat × Nat)
  initDownloaded : Bool
deriving DecidableEq

/-- The skip test
`if let Some(s) = last_seg { if s >= (discon_seq, seq) { continue } }`
(src/livestream.rs lines 377-381). -/
def skipSeg (last : Option (Nat × Nat)) (dSeq seq : Nat) : Bool :=
  match last with
  | Option.none => false
  | Option.some s => decide (keyLe (dSeq, seq) s)

/-- `if let Some(key) = &segment.key { encryption = Encryption::new(...) }`
(src/livestream.rs lines 384-386), with `Encryption::new` modelled from
the spec as `resolved`. -/
def updEnc (plUrl : Url) (seq : Nat) (enc : Encryption) : Option HlsKey → Encryption
  | Option.none => enc
  | Option.some k => .resolved k plUrl seq

/-- The initialization request emitted when `!init_downloaded` and the
segment carries `#EXT-X-MAP` metadata (src/livestream.rs lines 393-415);
it is sent with `Encryption::None`. -/
def initEmitList (stream : Stream) (plUrl : Url) (sent : Bool) : Option MediaMap → List Emit
  | Option.some m =>
      if sent then []
      else [(stream, Segment.initialization (makeAbsoluteUrl plUrl m.uri) m.byteRange,
             Encryption.none)]
  | Option.none => []

/-- The `init_downloaded` flag after one non-skipped segment: set once an
initialization request went out, never cleared. -/
def sentAfter (sent : Bool) (m : Option MediaMap) : Bool := sent || m.isSome

/-- One pass of the segment loop of `m3u8_fetcher`
(src/livestream.rs lines 365-440): walk the playlist's segments pairing
them with `media_sequence..`, track the running discontinuity offset,
skip already-seen keys, update the encryption context on declared keys,
emit at most one initialization request, and emit one sequence request
per new segment, advancing `last_seg`. -/
def walkSegs (stream : Stream) (plUrl : Url) (dBase : Nat) :
    List MediaSegment → Nat → Nat → Encryption → WalkState → List Emit × WalkState
  | [], _, _, _, st => ([], st)
  | sg :: rest, seq, dOff, enc, st =>
    let dOff' := if sg.discontinuity then dOff + 1 else dOff
    let dSeq := dBase + dOff'
    if skipSeg st.lastSeg dSeq seq then
      walkSegs stream plUrl dBase rest (seq + 1) dOff' enc st
    else
      let enc' := updEnc plUrl seq enc sg.key
      let inits := initEmitList stream plUrl st.initDownloaded sg.map
      let st' : WalkState := ⟨Option.some (dSeq, seq), sentAfter st.initDownloaded sg.map⟩
      let seqEmit : Emit :=
        (stream, Segment.sequence (makeAbsoluteUrl plUrl sg.uri) sg.byteRange dSeq seq, enc')
      let res := walkSegs stream plUrl dBase rest (seq + 1) dOff' enc' st'
      (inits ++ seqEmit :: res.1, res.2)

/-- One iteration of the `m3u8_fetcher` loop body over a fetched
playlist: the discontinuity offset restarts at 0 and the encryption
context restarts at `Encryption::None`
(src/livestream.rs lines 366-368). -/
def walkPlaylist (stream : Stream) (plUrl : Url) (pl : MediaPlaylist) (st : WalkState) :
    List Emit × WalkState :=
  walkSegs stream plUrl pl.discontinuitySequence pl.segments pl.mediaSequence 0
    Encryption.none st

/-- The poller over its whole lifetime: successive iterations of
`m3u8_fetcher`'s outer loop, one per fetched playlist. The number of
iterations is supplied as the list of playlists the poller would fetch;
`end_list` and the stop signal only bound how long that list is. -/
def pollIterations (stream : Stream) (plUrl : Url) :
    List MediaPlaylist → WalkState → List Emit × WalkState
  | [], st => ([], st)
  | pl :: rest, st =>
    let r := walkPlaylist stream plUrl pl st
    let r' := pollIterations stream plUrl rest r.2
    (r.1 ++ r'.1, r'.2)

/-- The ordering key of an emitted sequence request. -/
def emitKey : Emit → Option (Nat × Nat)
  | (_, Segment.sequence _ _ d s, _) => Option.some (d, s)
  | _ => Option.none

/-- Ordering keys of the sequence requests among `es`, in emission
order. -/
def seqKeys (es : List Emit) : List (Nat × Nat) := es.filterMap emitKey

/-- Whether an emitted request is an initialization request. -/
def isInitEmit : Emit → Bool
  | (_, Segment.initialization _ _, _) => true
  | _ => false

/-- Encryption context carried by an emitted request. -/
def encOf (e : Emit) : Encryption := e.2.2

/-- Number of initialization requests among `es`. -/
def initCount (es : List Emit) : Nat := (es.filter isInitEmit).length

/-- Spec function: the ordering key computed for every segment of one
playlist walk (in playlist order, skipped or not), used to phrase the
"already fully consumed playlist" property. -/
def segKeysAll (dBase : Nat) : List MediaSegment → Nat → Nat → List (Nat × Nat)
  | [], _, _ => []
  | sg :: rest, seq, dOff =>
    let dOff' := if sg.discontinuity then dOff + 1 else dOff
    (dBase + dOff', seq) :: segKeysAll dBase rest (seq + 1) dOff'

/-- Spec function: the non-skipped segments of one walk with their
computed keys, plus the final `last_seg`; a projection of `walkSegs`
used to name which segments actually influence emission. -/
def liveSegs (dBase : Nat) :
    List MediaSegment → Nat → Nat → Option (Nat × Nat) →
      List (Nat × Nat × MediaSegment) × Option (Nat × Nat)
  | [], _, _, last => ([], last)
  | sg :: rest, seq, dOff, last =>
    let dOff' := if sg.discontinuity then dOff + 1 else dOff
    let dSeq := dBase + dOff'
    if skipSeg last dSeq seq then
      liveSegs dBase rest (seq + 1) dOff' last
    else
      let r := liveSegs dBase rest (seq + 1) dOff' (Option.some (dSeq, seq))
      ((dSeq, seq, sg) :: r.1, r.2)

/-- Modelled from the spec: the Media Format collaborator's result; the
core consumes only its file extension. -/
structure MediaFormat where
  ext : Str
deriving DecidableEq

/-- `(Stream, Segment, Vec<u8>)` — one completed fetch. -/
abbrev SegmentIdData := Stream × Segment × Bytes

/-- State owned by the consumer loop of `Livestream::download`:
the initialization cache `init_map`, the per-stream manifest
`downloaded_segments`, and the files written so far. `HashMap`s are
modelled as association lists. -/
structure SaveState where
  initMap : List (Stream × Bytes)
  manifest : List (Stream × List (Segment × Str))
  files : List (Str × Bytes)
deriving DecidableEq

/-- `HashMap::get`. -/
def lookupA {α : Type} : List (Stream × α) → Stream → Option α
  | [], _ => Option.none
  | (k, v) :: rest, s => if k = s then Option.some v else lookupA rest s

/-- `HashMap::insert` (overwrite on an existing key). -/
def insertA {α : Type} (s : Stream) (v : α) : List (Stream × α) → List (Stream × α)
  | [] => [(s, v)]
  | (k, w) :: rest => if k = s then (k, v) :: rest else (k, w) :: insertA s v rest

/-- `downloaded_segments.entry(stream).or_default().push(v)`. -/
def pushEntry (s : Stream) (v : Segment × Str) :
    List (Stream × List (Segment × Str)) → List (Stream × List (Segment × Str))
  | [] => [(s, [v])]
  | (k, l) :: rest => if k = s then (k, l ++ [v]) :: rest else (k, l) :: pushEntry s v rest

/-- Error text standing for a failed `File::create`. -/
def fsErrorMsg : Str := ['f', 's', ' ', 'e', 'r', 'r', 'o', 'r']

/-- `save_segment` (src/livestream/mod.rs lines 292-339). An
initialization tuple only stores its bytes in `init_map`; a sequence
tuple prepends the cached initialization bytes when present, runs format
detection on the prepended buffer, writes it to a fresh file and appends
`(segment, path)` to the stream's manifest. `detect` stands for
`MediaFormat::detect` (collaborator, spec-modelled, may fail) and `fsOk`
for whether `File::create` succeeds at a path (filesystem oracle); on
either failure the maps are left untouched, as in the source where both
happen before any map mutation. -/
def saveSegment (detect : Bytes → Except Str MediaFormat) (fsOk : Str → Bool)
    (dir : Str) : SegmentIdData → SaveState → Except Str SaveState
  | (stream, Segment.initialization _ _, bytes), st =>
      .ok { st with initMap := insertA stream bytes st.initMap }
  | (stream, Segment.sequence u br d s, bytes), st =>
      let bytes' := match lookupA st.initMap stream with
        | Option.some init => init ++ bytes
        | Option.none => bytes
      match detect bytes' with
      | .error e => .error e
      | .ok fmt =>
        let path := dir ++ '/' :: fileName stream d s fmt.ext
        if fsOk path then
          .ok { st with
                files := st.files ++ [(path, bytes')],
                manifest := pushEntry stream (Segment.sequence u br d s, path) st.manifest }
        else .error fsErrorMsg

/-- The warning text `"Failed to download {}, reason: {}"` recorded for
a failed save (src/livestream/mod.rs lines 230-237). -/
def warnMsg (seg : Segment) (e : Str) : Str :=
  ['F', 'a', 'i', 'l', 'e', 'd', ' ', 't', 'o', ' ', 'd', 'o', 'w', 'n', 'l', 'o',
   'a', 'd', ' '] ++ seg.urlOf ++ [',', ' ', 'r', 'e', 'a', 's', 'o', 'n', ':', ' '] ++ e

/-- The consumer loop of `Livestream::download`
(src/livestream/mod.rs lines 209-238), run over the stream of completed
fetch results in completion order. `let id_data = x?;` propagates a
fetch error out of `download`, ending the loop; a failed save is logged
as a warning and the loop continues with the old state. The fail-fast
early break (lines 213-216) fires only on a concurrent poller failure
and is modelled as not triggered. -/
def downloadLoop (detect : Bytes → Except Str MediaFormat) (fsOk : Str → Bool) (dir : Str) :
    List (Except Str SegmentIdData) → SaveState → List Str →
      Except Str (SaveState × List Str)
  | [], st, warns => .ok (st, warns)
  | Except.error e :: _, _, _ => .error e
  | Except.ok x :: rest, st, warns =>
    match saveSegment detect fsOk dir x st with
    | .ok st' => downloadLoop detect fsOk dir rest st' warns
    | .error e => downloadLoop detect fsOk dir rest st (warns ++ [warnMsg x.2.1 e])

/-- Operations on the shared `Stopper` state: `stop()`, `wait()`,
`stopped()` (src/livestream.rs lines 36-59). `Arc` sharing means every
clone acts on the one flag; the `Mutex` serializes the operations into a
trace. -/
inductive StopOp where
  | stop
  | wait
  | query
deriving DecidableEq

/-- Effect of one `Stopper` operation on the shared flag: `stop()` sets
it to `true` (src/livestream.rs lines 55-58); `wait()` and `stopped()`
leave it unchanged. -/
def stepStop (s : Bool) : StopOp → Bool
  | .stop => true
  | .wait => s
  | .query => s

/-- The shared flag after a serialized trace of operations, starting
from `s`. -/
def runStops : Bool → List StopOp → Bool
  | s, [] => s
  | s, op :: rest => runStops (stepStop s op) rest

/-- `Stopper::stopped` on any clone reads the single flag behind the
`Arc`; the identity of the reading clone is irrelevant. -/
def stoppedRead (shared : Bool) (_clone : Nat) : Bool := shared

/-- `m3u8_rs::VariantStream`, restricted to the fields the resolver
consumes; `bandwidth` is a string in the m3u8_rs version used, parsed
with `str::parse::<u64>`. Modelled from the spec: the playlist grammar
parser is an external collaborator. -/
structure VariantStream where
  uri : Str
  bandwidth : Str
  audio : Option Str
  video : Option Str
  subtitles : Option Str
deriving DecidableEq

/-- Rust `str::parse::<u64>`: an optional leading `'+'`, then one or
more ASCII digits, and the value must fit in 64 bits. -/
def parseU64 (s : Str) : Option Nat :=
  let ds := match s with
    | '+' :: rest => rest
    | _ => s
  if ds = [] then Option.none
  else if ds.all (fun c => decide ('0' ≤ c) && decide (c ≤ '9')) then
    let v := ds.foldl (fun acc c => acc * 10 + (c.toNat - 48)) 0
    if v < 2 ^ 64 then Option.some v else Option.none
  else Option.none

/-- One step of `Iterator::max_by_key`: keep the current maximum,
replacing it whenever the new key is not smaller — so among equal keys
the **last** element wins, per `max_by_key`'s documented behavior. -/
def pickMax (acc y : Nat × VariantStream) : Nat × VariantStream :=
  if acc.1 > y.1 then acc else y

/-- `Iterator::max_by_key` over the parsed variants. -/
def maxByKeyLast : List (Nat × VariantStream) → Option (Nat × VariantStream)
  | [] => Option.none
  | x :: xs => Option.some (xs.foldl pickMax x)

/-- `p.variants.into_iter().filter_map(|v| Some((v.bandwidth.parse::<u64>().ok()?, v)))`
(src/livestream.rs lines 220-223). -/
def parsedVariants (vs : List VariantStream) : List (Nat × VariantStream) :=
  vs.filterMap (fun v => (parseU64 v.bandwidth).map (fun b => (b, v)))

/-- The variant the resolver registers as `Main`
(src/livestream.rs lines 217-229): the `max_by_key` over the variants
whose bandwidth parses, `None` when no bandwidth parses. -/
def selectVariant (vs : List VariantStream) : Option VariantStream :=
  (maxByKeyLast (parsedVariants vs)).map (fun p => p.2)

/-- The spec's Range-header formula `bytes=<offset>-<offset+length-1>`,
read over ℕ with truncated subtraction, stated for comparison with the
source's `byte_range`. -/
def specRangeStr (b : ByteRange) : Str :=
  bytesHeader (b.offset.getD 0) (b.offset.getD 0 + b.length - 1)

/-- All `(stream, segment, path)` entries recorded in a manifest. -/
def manifestPairs : List (Stream × List (Segment × Str)) → List (Stream × Segment × Str)
  | [] => []
  | (s, l) :: rest => l.map (fun q => (s, q.1, q.2)) ++ manifestPairs rest

/-- Whether a segment is a sequence segment. -/
def isSeqSegment : Segment → Bool
  | .sequence _ _ _ _ => true
  | .initialization _ _ => false

/-- Fixture: a format detector that always reports `ts`. -/
def detectTs : Bytes → Except Str MediaFormat := fun _ => .ok ⟨['t', 's']⟩

/-- Fixture: a filesystem where every `File::create` succeeds. -/
def fsAll : Str → Bool := fun _ => true

/-- Fixture: writer state holding cached initialization bytes `[1, 2]`
for the main stream. -/
def st₀ : SaveState := ⟨[(Stream.main, [1, 2])], [], []⟩

/-- Fixture: the file path produced for the fixture save. -/
def pathW : Str := ['o'] ++ '/' :: fileName Stream.main 0 0 ['t', 's']

/-- Fixture: the writer state after saving sequence segment `(0, 0)`
with bytes `[3, 4]` from `st₀`. -/
def stW : SaveState :=
  ⟨[(Stream.main, [1, 2])],
   [(Stream.main, [(Segment.sequence [] Option.none 0 0, pathW)])],
   [(pathW, [1, 2, 3, 4])]⟩

/-- Fixture: one completed fetch. -/
def okItem : SegmentIdData := (Stream.main, Segment.sequence ['u'] Option.none 0 0, [9])

/-- Fixture: a variant with bandwidth string `"100"` and uri `"a"`. -/
def vA : VariantStream := ⟨['a'], ['1', '0', '0'], Option.none, Option.none, Option.none⟩

/-- Fixture: a variant with bandwidth string `"100"` and uri `"b"`. -/
def vB : VariantStream := ⟨['b'], ['1', '0', '0'], Option.none, Option.none, Option.none⟩

/-- Fixture: a plain media segment with uri `[u]`. -/
def segU (u : Char) : MediaSegment := ⟨[u], Option.none, false, Option.none, Option.none⟩

/-- Fixture: a playlist with two plain segments, keys `(0,0)` and `(0,1)`. -/
def plC : MediaPlaylist := ⟨0, 0, false, [segU 'a', segU 'b']⟩

/-- Fixture: declared key metadata. -/
def keyK : HlsKey := ⟨['A', 'E', 'S'], Option.some ['k'], Option.none⟩

/-- Fixture: a playlist whose only segment (key `(0,0)`) declares `keyK`. -/
def plK1 : MediaPlaylist :=
  ⟨0, 0, false, [⟨['a'], Option.none, false, Option.some keyK, Option.none⟩]⟩

/-- Fixture: the next fetch of the same playlist — the key-declaring
segment again (now already seen), followed by a fresh segment `(0,1)`
with no key of its own. -/
def plK2 : MediaPlaylist :=
  ⟨0, 0, false,
   [⟨['a'], Option.none, false, Option.some keyK, Option.none⟩,
    ⟨['b'], Option.none, false, Option.none, Option.none⟩]⟩

/-- Fixture: a playlist whose first segment carries initialization
metadata. -/
def plM : MediaPlaylist :=
  ⟨0, 0, false,
   [⟨['a'], Option.none, false, Option.none, Option.some ⟨['m'], Option.none⟩⟩,
    ⟨['b'], Option.none, false, Option.none, Option.some ⟨['n'], Option.none⟩⟩]⟩

/-- The initialization request built from `#EXT-X-MAP` metadata `m`
(src/livestream.rs lines 397-412). -/
def mkInitEmit (stream : Stream) (plUrl : Url) (m : MediaMap) : Emit :=
  (stream, Segment.initialization (makeAbsoluteUrl plUrl m.uri) m.byteRange, Encryption.none)

/-- Spec function: the first initialization metadata carried by a list
of (non-skipped) segments, in order. -/
def firstMap : List (Nat × Nat × MediaSegment) → Option MediaMap
  | [] => Option.none
  | (_, _, sg) :: rest =>
    match sg.map with
    | Option.some m => Option.some m
    | Option.none => firstMap rest

/-- Spec function: all non-skipped segments over successive playlist
fetches, threading `last_seg` from one iteration to the next. -/
def liveAcross : List MediaPlaylist → Option (Nat × Nat) → List (Nat × Nat × MediaSegment)
  | [], _ => []
  | pl :: rest, last =>
    let r := liveSegs pl.discontinuitySequence pl.segments pl.mediaSequence 0 last
    r.1 ++ liveAcross rest r.2

/- ------------------------------------------------------------------ -/
/- Theorems                                                           -/
/- ------------------------------------------------------------------ -/

/-- Helper: `keyLe` is reflexive. -/
theorem keyLe_refl (a : Nat × Nat) : keyLe a a := by
  unfold keyLe; omega

/-- Helper: a key `≤` a key `<` a third is `<` it. -/
theorem keyLe_keyLt_trans {a b c : Nat × Nat} (h₁ : keyLe a b) (h₂ : keyLt b c) :
    keyLt a c := by
  unfold keyLe at h₁; unfold keyLt at h₂ ⊢; omega

/-- Helper: a key `<` a key `≤` a third is `<` it. -/
theorem keyLt_keyLe_trans {a b c : Nat × Nat} (h₁ : keyLt a b) (h₂ : keyLe b c) :
    keyLt a c := by
  unfold keyLt at h₁ ⊢; unfold keyLe at h₂; omega

/-- Helper: strict key order implies weak key order. -/
theorem keyLe_of_keyLt {a b : Nat × Nat} (h : keyLt a b) : keyLe a b := by
  unfold keyLt at h; unfold keyLe; omega

/-- Helper: the skip test fails exactly when the candidate key is
strictly above the last seen key. -/
theorem skipSeg_false_iff (k : Nat × Nat) (dSeq seq : Nat) :
    skipSeg (Option.some k) dSeq seq = false ↔ keyLt k (dSeq, seq) := by
  simp only [skipSeg, decide_eq_false_iff_not]
  unfold keyLe keyLt
  omega

/-- Helper: unfolding of one `walkSegs` step. -/
theorem walkSegs_cons (stream : Stream) (plUrl : Url) (dBase : Nat) (sg : MediaSegment)
    (rest : List MediaSegment) (seq dOff : Nat) (enc : Encryption) (st : WalkState) :
    walkSegs stream plUrl dBase (sg :: rest) seq dOff enc st =
      if skipSeg st.lastSeg (dBase + (if sg.discontinuity then dOff + 1 else dOff)) seq then
        walkSegs stream plUrl dBase rest (seq + 1)
          (if sg.discontinuity then dOff + 1 else dOff) enc st
      else
        (initEmitList stream plUrl st.initDownloaded sg.map ++
          (stream, Segment.sequence (makeAbsoluteUrl plUrl sg.uri) sg.byteRange
            (dBase + (if sg.discontinuity then dOff + 1 else dOff)) seq,
            updEnc plUrl seq enc sg.key) ::
          (walkSegs stream plUrl dBase rest (seq + 1)
            (if sg.discontinuity then dOff + 1 else dOff) (updEnc plUrl seq enc sg.key)
            ⟨Option.some (dBase + (if sg.discontinuity then dOff + 1 else dOff), seq),
              sentAfter st.initDownloaded sg.map⟩).1,
         (walkSegs stream plUrl dBase rest (seq + 1)
            (if sg.discontinuity then dOff + 1 else dOff) (updEnc plUrl seq enc sg.key)
            ⟨Option.some (dBase + (if sg.discontinuity then dOff + 1 else dOff), seq),
              sentAfter st.initDownloaded sg.map⟩).2) := rfl

/-- Helper: unfolding of one `liveSegs` step. -/
theorem liveSegs_cons (dBase : Nat) (sg : MediaSegment) (rest : List MediaSegment)
    (seq dOff : Nat) (last : Option (Nat × Nat)) :
    liveSegs dBase (sg :: rest) seq dOff last =
      if skipSeg last (dBase + (if sg.discontinuity then dOff + 1 else dOff)) seq then
        liveSegs dBase rest (seq + 1) (if sg.discontinuity then dOff + 1 else dOff) last
      else
        (((dBase + (if sg.discontinuity then dOff + 1 else dOff)), seq, sg) ::
          (liveSegs dBase rest (seq + 1) (if sg.discontinuity then dOff + 1 else dOff)
            (Option.some (dBase + (if sg.discontinuity then dOff + 1 else dOff), seq))).1,
         (liveSegs dBase rest (seq + 1) (if sg.discontinuity then dOff + 1 else dOff)
            (Option.some (dBase + (if sg.discontinuity then dOff + 1 else dOff), seq))).2) := rfl

/-- Helper: unfolding of one `segKeysAll` step. -/
theorem segKeysAll_cons (dBase : Nat) (sg : MediaSegment) (rest : List MediaSegment)
    (seq dOff : Nat) :
    segKeysAll dBase (sg :: rest) seq dOff =
      (dBase + (if sg.discontinuity then dOff + 1 else dOff), seq) ::
        segKeysAll dBase rest (seq + 1) (if sg.discontinuity then dOff + 1 else dOff) := rfl

/-- Helper: `seqKeys` distributes over append. -/
theorem seqKeys_append (l₁ l₂ : List Emit) :
    seqKeys (l₁ ++ l₂) = seqKeys l₁ ++ seqKeys l₂ :=
  List.filterMap_append _ _ _

/-- Helper: initialization requests contribute no sequence keys. -/
theorem seqKeys_initEmitList (stream : Stream) (plUrl : Url) (sent : Bool)
    (m : Option MediaMap) : seqKeys (initEmitList stream plUrl sent m) = [] := by
  cases m with
  | none => rfl
  | some mp =>
    simp only [initEmitList]
    split
    · rfl
    · rfl

/-- Helper: the sequence key of a sequence emit. -/
theorem seqKeys_cons_seq (stream : Stream) (u : Url) (br : Option ByteRange) (d s : Nat)
    (enc : Encryption) (es : List Emit) :
    seqKeys ((stream, Segment.sequence u br d s, enc) :: es) = (d, s) :: seqKeys es := rfl

/-- Helper: one `walkSegs` step on a skipped segment. -/
theorem walkSegs_skip (stream : Stream) (plUrl : Url) (dBase : Nat) (sg : MediaSegment)
    (rest : List MediaSegment) (seq dOff : Nat) (enc : Encryption) (st : WalkState)
    (h : skipSeg st.lastSeg (dBase + (if sg.discontinuity then dOff + 1 else dOff)) seq
          = true) :
    walkSegs stream plUrl dBase (sg :: rest) seq dOff enc st =
      walkSegs stream plUrl dBase rest (seq + 1)
        (if sg.discontinuity then dOff + 1 else dOff) enc st := by
  rw [walkSegs_cons, if_pos h]

/-- Helper: emissions of one `walkSegs` step on a non-skipped segment. -/
theorem walkSegs_emit_fst (stream : Stream) (plUrl : Url) (dBase : Nat) (sg : MediaSegment)
    (rest : List MediaSegment) (seq dOff : Nat) (enc : Encryption) (st : WalkState)
    (h : skipSeg st.lastSeg (dBase + (if sg.discontinuity then dOff + 1 else dOff)) seq
          = false) :
    (walkSegs stream plUrl dBase (sg :: rest) seq dOff enc st).1 =
      initEmitList stream plUrl st.initDownloaded sg.map ++
        (stream, Segment.sequence (makeAbsoluteUrl plUrl sg.uri) sg.byteRange
          (dBase + (if sg.discontinuity then dOff + 1 else dOff)) seq,
          updEnc plUrl seq enc sg.key) ::
        (walkSegs stream plUrl dBase rest (seq + 1)
          (if sg.discontinuity then dOff + 1 else dOff) (updEnc plUrl seq enc sg.key)
          ⟨Option.some (dBase + (if sg.discontinuity then dOff + 1 else dOff), seq),
            sentAfter st.initDownloaded sg.map⟩).1 := by
  rw [walkSegs_cons, if_neg (by simp [h])]

/-- Helper: final state of one `walkSegs` step on a non-skipped
segment. -/
theorem walkSegs_emit_snd (stream : Stream) (plUrl : Url) (dBase : Nat) (sg : MediaSegment)
    (rest : List MediaSegment) (seq dOff : Nat) (enc : Encryption) (st : WalkState)
    (h : skipSeg st.lastSeg (dBase + (if sg.discontinuity then dOff + 1 else dOff)) seq
          = false) :
    (walkSegs stream plUrl dBase (sg :: rest) seq dOff enc st).2 =
      (walkSegs stream plUrl dBase rest (seq + 1)
        (if sg.discontinuity then dOff + 1 else dOff) (updEnc plUrl seq enc sg.key)
        ⟨Option.some (dBase + (if sg.discontinuity then dOff + 1 else dOff), seq),
          sentAfter st.initDownloaded sg.map⟩).2 := by
  rw [walkSegs_cons, if_neg (by simp [h])]

/-- Helper: the walk invariant — every emitted sequence key is strictly
above the incoming `last_seg`, emitted keys are strictly increasing, each
emitted key is bounded by the final `last_seg`, and `last_seg` itself
never decreases. -/
theorem walkSegs_inv (stream : Stream) (plUrl : Url) (dBase : Nat) :
    ∀ (segs : List MediaSegment) (seq dOff : Nat) (enc : Encryption) (st : WalkState),
      (∀ k, st.lastSeg = Option.some k →
        ∀ p ∈ seqKeys (walkSegs stream plUrl dBase segs seq dOff enc st).1, keyLt k p) ∧
      List.Chain' keyLt (seqKeys (walkSegs stream plUrl dBase segs seq dOff enc st).1) ∧
      (∀ p ∈ seqKeys (walkSegs stream plUrl dBase segs seq dOff enc st).1,
        ∃ m, (walkSegs stream plUrl dBase segs seq dOff enc st).2.lastSeg = Option.some m ∧
          keyLe p m) ∧
      (∀ k, st.lastSeg = Option.some k →
        ∃ m, (walkSegs stream plUrl dBase segs seq dOff enc st).2.lastSeg = Option.some m ∧
          keyLe k m) := by
  intro segs
  induction segs with
  | nil =>
    intro seq dOff enc st
    refine ⟨?_, ?_, ?_, ?_⟩
    · intro k _ p hp
      simp [walkSegs, seqKeys] at hp
    · simp [walkSegs, seqKeys]
    · intro p hp
      simp [walkSegs, seqKeys] at hp
    · intro k hk
      exact ⟨k, hk, keyLe_refl k⟩
  | cons sg rest ih =>
    intro seq dOff enc st
    cases hskip : skipSeg st.lastSeg
        (dBase + (if sg.discontinuity then dOff + 1 else dOff)) seq with
    | true =>
      rw [walkSegs_skip stream plUrl dBase sg rest seq dOff enc st hskip]
      exact ih (seq + 1) (if sg.discontinuity then dOff + 1 else dOff) enc st
    | false =>
      rw [walkSegs_emit_fst stream plUrl dBase sg rest seq dOff enc st hskip,
        walkSegs_emit_snd stream plUrl dBase sg rest seq dOff enc st hskip]
      obtain ⟨ih1, ih2, ih3, ih4⟩ :=
        ih (seq + 1) (if sg.discontinuity then dOff + 1 else dOff)
          (updEnc plUrl seq enc sg.key)
          ⟨Option.some (dBase + (if sg.discontinuity then dOff + 1 else dOff), seq),
            sentAfter st.initDownloaded sg.map⟩
      simp only [seqKeys_append, seqKeys_initEmitList, List.nil_append, seqKeys_cons_seq]
      refine ⟨?_, ?_, ?_, ?_⟩
      · intro k hk p hp
        have hb : skipSeg (Option.some k)
            (dBase + (if sg.discontinuity then dOff + 1 else dOff)) seq = false := by
          rw [hk] at hskip
          exact hskip
        have hlt := (skipSeg_false_iff k _ seq).mp hb
        rcases List.mem_cons.mp hp with h | h
        · rw [h]
          exact hlt
        · exact keyLt_keyLe_trans hlt (keyLe_of_keyLt (ih1 _ rfl p h))
      · refine List.chain'_cons'.mpr ⟨?_, ih2⟩
        intro y hy
        exact ih1 _ rfl y (List.mem_of_mem_head? hy)
      · intro p hp
        rcases List.mem_cons.mp hp with h | h
        · obtain ⟨m, hm, hle⟩ := ih4 _ rfl
          exact ⟨m, hm, h ▸ hle⟩
        · exact ih3 p h
      · intro k hk
        obtain ⟨m, hm, hle⟩ := ih4 _ rfl
        have hb : skipSeg (Option.some k)
            (dBase + (if sg.discontinuity then dOff + 1 else dOff)) seq = false := by
          rw [hk] at hskip
          exact hskip
        exact ⟨m, hm,
          keyLe_of_keyLt (keyLt_keyLe_trans ((skipSeg_false_iff k _ seq).mp hb) hle)⟩

/-- Helper: `keyLe` is transitive. -/
theorem keyLe_trans {a b c : Nat × Nat} (h₁ : keyLe a b) (h₂ : keyLe b c) : keyLe a c := by
  unfold keyLe at h₁ h₂ ⊢; omega

/-- Helper: an element of `getLast?` is an element of the list. -/
theorem mem_of_getLastQ {α : Type} {l : List α} {x : α} (h : x ∈ l.getLast?) : x ∈ l := by
  obtain ⟨hne, hx⟩ := List.mem_getLast?_eq_getLast h
  rw [hx]
  exact List.getLast_mem hne

/-- Helper: the walk invariant restated over `walkPlaylist`. -/
theorem walkPlaylist_inv (stream : Stream) (plUrl : Url) (pl : MediaPlaylist)
    (st : WalkState) :
    (∀ k, st.lastSeg = Option.some k →
      ∀ p ∈ seqKeys (walkPlaylist stream plUrl pl st).1, keyLt k p) ∧
    List.Chain' keyLt (seqKeys (walkPlaylist stream plUrl pl st).1) ∧
    (∀ p ∈ seqKeys (walkPlaylist stream plUrl pl st).1,
      ∃ m, (walkPlaylist stream plUrl pl st).2.lastSeg = Option.some m ∧ keyLe p m) ∧
    (∀ k, st.lastSeg = Option.some k →
      ∃ m, (walkPlaylist stream plUrl pl st).2.lastSeg = Option.some m ∧ keyLe k m) :=
  walkSegs_inv stream plUrl pl.discontinuitySequence pl.segments pl.mediaSequence 0
    Encryption.none st

/-- Helper: a walk over a playlist whose computed keys are all `≤` the
last seen key emits nothing and leaves the state untouched. -/
theorem walkSegs_consumed (stream : Stream) (plUrl : Url) (dBase : Nat) :
    ∀ (segs : List MediaSegment) (seq dOff : Nat) (enc : Encryption) (st : WalkState)
      (k : Nat × Nat),
      st.lastSeg = Option.some k →
      (∀ p ∈ segKeysAll dBase segs seq dOff, keyLe p k) →
      walkSegs stream plUrl dBase segs seq dOff enc st = ([], st) := by
  intro segs
  induction segs with
  | nil =>
    intro seq dOff enc st k _ _
    rfl
  | cons sg rest ih =>
    intro seq dOff enc st k hk hall
    have hhead : keyLe (dBase + (if sg.discontinuity then dOff + 1 else dOff), seq) k := by
      apply hall
      rw [segKeysAll_cons]
      exact List.mem_cons_self _ _
    have hskip : skipSeg st.lastSeg
        (dBase + (if sg.discontinuity then dOff + 1 else dOff)) seq = true := by
      rw [hk]
      exact decide_eq_true hhead
    rw [walkSegs_skip stream plUrl dBase sg rest seq dOff enc st hskip]
    refine ih (seq + 1) _ enc st k hk ?_
    intro p hp
    apply hall
    rw [segKeysAll_cons]
    exact List.mem_cons_of_mem _ hp

/-- Helper: the poller invariant across iterations — all emitted
sequence keys are strictly above the incoming `last_seg`, strictly
increasing over the whole lifetime, bounded by the final `last_seg`,
which never decreases. -/
theorem pollIterations_inv (stream : Stream) (plUrl : Url) :
    ∀ (pls : List MediaPlaylist) (st : WalkState),
      (∀ k, st.lastSeg = Option.some k →
        ∀ p ∈ seqKeys (pollIterations stream plUrl pls st).1, keyLt k p) ∧
      List.Chain' keyLt (seqKeys (pollIterations stream plUrl pls st).1) ∧
      (∀ p ∈ seqKeys (pollIterations stream plUrl pls st).1,
        ∃ m, (pollIterations stream plUrl pls st).2.lastSeg = Option.some m ∧ keyLe p m) ∧
      (∀ k, st.lastSeg = Option.some k →
        ∃ m, (pollIterations stream plUrl pls st).2.lastSeg = Option.some m ∧
          keyLe k m) := by
  intro pls
  induction pls with
  | nil =>
    intro st
    refine ⟨?_, ?_, ?_, ?_⟩
    · intro k _ p hp
      simp [pollIterations, seqKeys] at hp
    · simp [pollIterations, seqKeys]
    · intro p hp
      simp [pollIterations, seqKeys] at hp
    · intro k hk
      exact ⟨k, hk, keyLe_refl k⟩
  | cons pl rest ih =>
    intro st
    obtain ⟨w1, w2, w3, w4⟩ := walkPlaylist_inv stream plUrl pl st
    obtain ⟨ih1, ih2, ih3, ih4⟩ := ih (walkPlaylist stream plUrl pl st).2
    have hunfold : pollIterations stream plUrl (pl :: rest) st =
        ((walkPlaylist stream plUrl pl st).1 ++
          (pollIterations stream plUrl rest (walkPlaylist stream plUrl pl st).2).1,
         (pollIterations stream plUrl rest (walkPlaylist stream plUrl pl st).2).2) := rfl
    rw [hunfold]
    simp only [seqKeys_append]
    refine ⟨?_, ?_, ?_, ?_⟩
    · intro k hk p hp
      rcases List.mem_append.mp hp with h | h
      · exact w1 k hk p h
      · obtain ⟨m, hm, hkm⟩ := w4 k hk
        exact keyLe_keyLt_trans hkm (ih1 m hm p h)
    · refine List.Chain'.append w2 ih2 ?_
      intro x hx y hy
      obtain ⟨m, hm, hxm⟩ := w3 x (mem_of_getLastQ hx)
      exact keyLe_keyLt_trans hxm (ih1 m hm y (List.mem_of_mem_head? hy))
    · intro p hp
      rcases List.mem_append.mp hp with h | h
      · obtain ⟨m, hm, hpm⟩ := w3 p h
        obtain ⟨m', hm', hmm'⟩ := ih4 m hm
        exact ⟨m', hm', keyLe_trans hpm hmm'⟩
      · exact ih3 p h
    · intro k hk
      obtain ⟨m, hm, hkm⟩ := w4 k hk
      obtain ⟨m', hm', hmm'⟩ := ih4 m hm
      exact ⟨m', hm', keyLe_trans hkm hmm'⟩

/-- C3: over a poller's whole lifetime the ordering keys of emitted
Sequence requests are strictly increasing in lexicographic order; every
emitted key is strictly above the incoming `last_seg`, so a segment
whose key is `≤` the last emitted key is never re-emitted; and walking a
playlist all of whose computed keys are `≤` the last emitted key emits
zero new requests. -/
theorem poller_monotonic (stream : Stream) (plUrl : Url) (pls : List MediaPlaylist)
    (st : WalkState) :
    List.Chain' keyLt (seqKeys (pollIterations stream plUrl pls st).1) ∧
    (∀ k, st.lastSeg = Option.some k →
      ∀ p ∈ seqKeys (pollIterations stream plUrl pls st).1, keyLt k p) ∧
    (∀ (pl : MediaPlaylist) (k : Nat × Nat), st.lastSeg = Option.some k →
      (∀ p ∈ segKeysAll pl.discontinuitySequence pl.segments pl.mediaSequence 0, keyLe p k) →
      (walkPlaylist stream plUrl pl st).1 = []) := by
  obtain ⟨h1, h2, _, _⟩ := pollIterations_inv stream plUrl pls st
  refine ⟨h2, h1, ?_⟩
  intro pl k hk hall
  have := walkSegs_consumed stream plUrl pl.discontinuitySequence pl.segments
    pl.mediaSequence 0 Encryption.none st k hk hall
  unfold walkPlaylist
  rw [this]

/-- C3 witness: a poller that last emitted key `(0, 5)` walks a playlist
with keys `(0, 0)` and `(0, 1)` and emits nothing. -/
theorem poller_monotonic_witness :
    (walkPlaylist Stream.main ['u'] plC ⟨Option.some (0, 5), false⟩).1 = [] :=
  (poller_monotonic Stream.main ['u'] [plC] ⟨Option.some (0, 5), false⟩).2.2 plC (0, 5)
    rfl (by decide)

/-- Helper: when no non-skipped segment of a walk declares key material,
every sequence request the walk emits carries the walk's incoming
encryption context — keys on skipped segments are never consulted. -/
theorem walkSegs_enc_const (stream : Stream) (plUrl : Url) (dBase : Nat) :
    ∀ (segs : List MediaSegment) (seq dOff : Nat) (enc : Encryption) (st : WalkState),
      (∀ t ∈ (liveSegs dBase segs seq dOff st.lastSeg).1, t.2.2.key = Option.none) →
      ∀ e ∈ (walkSegs stream plUrl dBase segs seq dOff enc st).1,
        emitKey e ≠ Option.none → encOf e = enc := by
  intro segs
  induction segs with
  | nil =>
    intro seq dOff enc st _ e he _
    simp [walkSegs] at he
  | cons sg rest ih =>
    intro seq dOff enc st hkeys e he hseq
    cases hskip : skipSeg st.lastSeg
        (dBase + (if sg.discontinuity then dOff + 1 else dOff)) seq with
    | true =>
      rw [walkSegs_skip stream plUrl dBase sg rest seq dOff enc st hskip] at he
      refine ih (seq + 1) _ enc st ?_ e he hseq
      intro t ht
      apply hkeys
      rw [liveSegs_cons, if_pos hskip]
      exact ht
    | false =>
      rw [walkSegs_emit_fst stream plUrl dBase sg rest seq dOff enc st hskip] at he
      have hkey : sg.key = Option.none := by
        apply hkeys (dBase + (if sg.discontinuity then dOff + 1 else dOff), seq, sg)
        rw [liveSegs_cons, if_neg (by simp [hskip])]
        exact List.mem_cons_self _ _
      have henc : updEnc plUrl seq enc sg.key = enc := by
        rw [hkey]
        rfl
      rcases List.mem_append.mp he with h | h
      · exfalso
        apply hseq
        cases hm : sg.map with
        | none =>
          rw [hm] at h
          simp [initEmitList] at h
        | some mp =>
          rw [hm] at h
          simp only [initEmitList] at h
          split at h
          · simp at h
          · rw [List.mem_singleton] at h
            rw [h]
            rfl
      · rcases List.mem_cons.mp h with h | h
        · rw [h]
          simp only [encOf]
          exact henc
        · rw [← henc]
          refine ih (seq + 1) _ (updEnc plUrl seq enc sg.key) _ ?_ e h hseq
          intro t ht
          apply hkeys
          rw [liveSegs_cons, if_neg (by simp [hskip])]
          exact List.mem_cons_of_mem _ ht

/-- C7 counterexample: a key declared in iteration 1 (segment `(0,0)` of
`plK1`) does **not** persist into iteration 2 — the fresh segment
`(0,1)` of `plK2`, whose key-declaring predecessor is skipped, is
emitted with `Encryption.none`, not with the previously resolved
context. -/
theorem poller_enc_counterexample :
    (pollIterations Stream.main ['u'] [plK1, plK2] ⟨Option.none, false⟩).1 =
      [(Stream.main, Segment.sequence (['u'] ++ ['a']) Option.none 0 0,
          Encryption.resolved keyK ['u'] 0),
       (Stream.main, Segment.sequence (['u'] ++ ['b']) Option.none 0 1,
          Encryption.none)] ∧
    Encryption.none ≠ Encryption.resolved keyK ['u'] 0 := by decide

/-- C7 (amended): the poller's encryption context is per-iteration
state: each playlist walk restarts from `Encryption::None` and the
context changes only when a **non-skipped** segment of that same walk
declares key material. Hence when no non-skipped segment of a walk
declares a key, every Sequence request of that walk — in particular one
whose key was declared in an earlier iteration, on a now-skipped
segment — carries `Encryption.none`. -/
theorem poller_enc_reset (stream : Stream) (plUrl : Url) (pl : MediaPlaylist)
    (st : WalkState)
    (hkeys : ∀ t ∈ (liveSegs pl.discontinuitySequence pl.segments pl.mediaSequence 0
        st.lastSeg).1, t.2.2.key = Option.none) :
    ∀ e ∈ (walkPlaylist stream plUrl pl st).1, emitKey e ≠ Option.none →
      encOf e = Encryption.none :=
  walkSegs_enc_const stream plUrl pl.discontinuitySequence pl.segments pl.mediaSequence 0
    Encryption.none st hkeys

/-- C7 witness: the amended reset property applied to the second fetch
`plK2` after the first iteration consumed key `(0, 0)`. -/
theorem poller_enc_reset_witness :
    encOf (Stream.main, Segment.sequence (['u'] ++ ['b']) Option.none 0 1,
        Encryption.none) = Encryption.none :=
  poller_enc_reset Stream.main ['u'] plK2 ⟨Option.some (0, 0), false⟩ (by decide)
    (Stream.main, Segment.sequence (['u'] ++ ['b']) Option.none 0 1, Encryption.none)
    (by decide) (by decide)

/-- Helper: unfolding of one `pollIterations` step. -/
theorem pollIterations_cons (stream : Stream) (plUrl : Url) (pl : MediaPlaylist)
    (rest : List MediaPlaylist) (st : WalkState) :
    pollIterations stream plUrl (pl :: rest) st =
      ((walkPlaylist stream plUrl pl st).1 ++
        (pollIterations stream plUrl rest (walkPlaylist stream plUrl pl st).2).1,
       (pollIterations stream plUrl rest (walkPlaylist stream plUrl pl st).2).2) := rfl

/-- Helper: filtering the one-step initialization emissions keeps them
all. -/
theorem filter_initEmitList (stream : Stream) (plUrl : Url) (sent : Bool)
    (m : Option MediaMap) :
    (initEmitList stream plUrl sent m).filter isInitEmit =
      initEmitList stream plUrl sent m := by
  cases m with
  | none => rfl
  | some mp =>
    simp only [initEmitList]
    split
    · rfl
    · rfl

/-- Helper: the walk's final `last_seg` equals the one `liveSegs`
computes. -/
theorem walkSegs_lastSeg_eq (stream : Stream) (plUrl : Url) (dBase : Nat) :
    ∀ (segs : List MediaSegment) (seq dOff : Nat) (enc : Encryption) (st : WalkState),
      (walkSegs stream plUrl dBase segs seq dOff enc st).2.lastSeg =
        (liveSegs dBase segs seq dOff st.lastSeg).2 := by
  intro segs
  induction segs with
  | nil =>
    intro seq dOff enc st
    rfl
  | cons sg rest ih =>
    intro seq dOff enc st
    cases hskip : skipSeg st.lastSeg
        (dBase + (if sg.discontinuity then dOff + 1 else dOff)) seq with
    | true =>
      rw [walkSegs_skip stream plUrl dBase sg rest seq dOff enc st hskip,
        liveSegs_cons, if_pos hskip]
      exact ih (seq + 1) _ enc st
    | false =>
      have hns : ¬ (skipSeg st.lastSeg
          (dBase + (if sg.discontinuity then dOff + 1 else dOff)) seq = true) := by
        simp [hskip]
      rw [walkSegs_emit_snd stream plUrl dBase sg rest seq dOff enc st hskip,
        liveSegs_cons, if_neg hns]
      exact ih (seq + 1) _ (updEnc plUrl seq enc sg.key)
        ⟨Option.some (dBase + (if sg.discontinuity then dOff + 1 else dOff), seq),
          sentAfter st.initDownloaded sg.map⟩

/-- Helper: `firstMap` over an append. -/
theorem firstMap_append (l₁ l₂ : List (Nat × Nat × MediaSegment)) :
    firstMap (l₁ ++ l₂) =
      (match firstMap l₁ with
        | Option.some m => Option.some m
        | Option.none => firstMap l₂) := by
  induction l₁ with
  | nil => rfl
  | cons t rest ih =>
    obtain ⟨d, s, sg⟩ := t
    cases hm : sg.map with
    | some mp => simp [firstMap, hm]
    | none => simp [firstMap, hm, ih]

/-- Helper: the walk's initialization emissions are exactly one request
built from the first initialization metadata among its non-skipped
segments — none when the flag is already set — and the final flag
records whether any such metadata exists or the flag was already set. -/
theorem walkSegs_init_spec (stream : Stream) (plUrl : Url) (dBase : Nat) :
    ∀ (segs : List MediaSegment) (seq dOff : Nat) (enc : Encryption) (st : WalkState),
      ((walkSegs stream plUrl dBase segs seq dOff enc st).1.filter isInitEmit =
        (if st.initDownloaded then []
         else
           match firstMap (liveSegs dBase segs seq dOff st.lastSeg).1 with
           | Option.some m => [mkInitEmit stream plUrl m]
           | Option.none => [])) ∧
      ((walkSegs stream plUrl dBase segs seq dOff enc st).2.initDownloaded =
        (st.initDownloaded ||
          (firstMap (liveSegs dBase segs seq dOff st.lastSeg).1).isSome)) := by
  intro segs
  induction segs with
  | nil =>
    intro seq dOff enc st
    constructor
    · cases h : st.initDownloaded <;> simp [walkSegs, liveSegs, firstMap, h]
    · cases h : st.initDownloaded <;> simp [walkSegs, liveSegs, firstMap, h]
  | cons sg rest ih =>
    intro seq dOff enc st
    cases hskip : skipSeg st.lastSeg
        (dBase + (if sg.discontinuity then dOff + 1 else dOff)) seq with
    | true =>
      rw [walkSegs_skip stream plUrl dBase sg rest seq dOff enc st hskip,
        liveSegs_cons, if_pos hskip]
      exact ih (seq + 1) _ enc st
    | false =>
      have hns : ¬ (skipSeg st.lastSeg
          (dBase + (if sg.discontinuity then dOff + 1 else dOff)) seq = true) := by
        simp [hskip]
      rw [walkSegs_emit_fst stream plUrl dBase sg rest seq dOff enc st hskip,
        walkSegs_emit_snd stream plUrl dBase sg rest seq dOff enc st hskip,
        liveSegs_cons, if_neg hns]
      obtain ⟨ih1, ih2⟩ :=
        ih (seq + 1) (if sg.discontinuity then dOff + 1 else dOff)
          (updEnc plUrl seq enc sg.key)
          ⟨Option.some (dBase + (if sg.discontinuity then dOff + 1 else dOff), seq),
            sentAfter st.initDownloaded sg.map⟩
      have hni : ¬ isInitEmit (stream,
          Segment.sequence (makeAbsoluteUrl plUrl sg.uri) sg.byteRange
            (dBase + (if sg.discontinuity then dOff + 1 else dOff)) seq,
          updEnc plUrl seq enc sg.key) = true := by
        simp [isInitEmit]
      constructor
      · rw [List.filter_append, filter_initEmitList,
          List.filter_cons_of_neg hni, ih1]
        cases hsd : st.initDownloaded with
        | true => cases hm : sg.map <;> simp [initEmitList, sentAfter, hsd, hm]
        | false =>
          cases hm : sg.map with
          | some mp => simp [initEmitList, sentAfter, firstMap, hsd, hm, mkInitEmit]
          | none => simp [initEmitList, sentAfter, firstMap, hsd, hm]
      · rw [ih2]
        cases hsd : st.initDownloaded with
        | true => simp [sentAfter, hsd]
        | false =>
          cases hm : sg.map with
          | some mp => simp [sentAfter, firstMap, hsd, hm]
          | none => simp [sentAfter, firstMap, hsd, hm]

/-- Helper: every initialization request a walk emits carries
`Encryption.none`. -/
theorem walkSegs_init_enc (stream : Stream) (plUrl : Url) (dBase : Nat) :
    ∀ (segs : List MediaSegment) (seq dOff : Nat) (enc : Encryption) (st : WalkState),
      ∀ e ∈ (walkSegs stream plUrl dBase segs seq dOff enc st).1,
        isInitEmit e = true → encOf e = Encryption.none := by
  intro segs
  induction segs with
  | nil =>
    intro seq dOff enc st e he _
    simp [walkSegs] at he
  | cons sg rest ih =>
    intro seq dOff enc st e he hinit
    cases hskip : skipSeg st.lastSeg
        (dBase + (if sg.discontinuity then dOff + 1 else dOff)) seq with
    | true =>
      rw [walkSegs_skip stream plUrl dBase sg rest seq dOff enc st hskip] at he
      exact ih (seq + 1) _ enc st e he hinit
    | false =>
      rw [walkSegs_emit_fst stream plUrl dBase sg rest seq dOff enc st hskip] at he
      rcases List.mem_append.mp he with h | h
      · cases hm : sg.map with
        | none =>
          rw [hm] at h
          simp [initEmitList] at h
        | some mp =>
          rw [hm] at h
          simp only [initEmitList] at h
          split at h
          · simp at h
          · rw [List.mem_singleton] at h
            rw [h]
            rfl
      · rcases List.mem_cons.mp h with h | h
        · rw [h] at hinit
          exact absurd hinit (by simp [isInitEmit])
        · exact ih (seq + 1) _ (updEnc plUrl seq enc sg.key) _ e h hinit

/-- Helper: every initialization request the poller ever emits carries
`Encryption.none`. -/
theorem pollIterations_init_enc (stream : Stream) (plUrl : Url) :
    ∀ (pls : List MediaPlaylist) (st : WalkState),
      ∀ e ∈ (pollIterations stream plUrl pls st).1, isInitEmit e = true →
        encOf e = Encryption.none := by
  intro pls
  induction pls with
  | nil =>
    intro st e he _
    simp [pollIterations] at he
  | cons pl rest ih =>
    intro st e he hinit
    rw [pollIterations_cons] at he
    rcases List.mem_append.mp he with h | h
    · exact walkSegs_init_enc stream plUrl pl.discontinuitySequence pl.segments
        pl.mediaSequence 0 Encryption.none st e h hinit
    · exact ih _ e h hinit

/-- Helper: over its whole lifetime the poller's initialization
emissions are exactly one request built from the first initialization
metadata among all non-skipped segments — none when the flag is already
set — and the flag records whether one was sent. -/
theorem pollIterations_init_spec (stream : Stream) (plUrl : Url) :
    ∀ (pls : List MediaPlaylist) (st : WalkState),
      ((pollIterations stream plUrl pls st).1.filter isInitEmit =
        (if st.initDownloaded then []
         else
           match firstMap (liveAcross pls st.lastSeg) with
           | Option.some m => [mkInitEmit stream plUrl m]
           | Option.none => [])) ∧
      ((pollIterations stream plUrl pls st).2.initDownloaded =
        (st.initDownloaded || (firstMap (liveAcross pls st.lastSeg)).isSome)) := by
  intro pls
  induction pls with
  | nil =>
    intro st
    constructor
    · cases h : st.initDownloaded <;> simp [pollIterations, liveAcross, firstMap, h]
    · cases h : st.initDownloaded <;> simp [pollIterations, liveAcross, firstMap, h]
  | cons pl rest ih =>
    intro st
    obtain ⟨w1, w2⟩ := walkSegs_init_spec stream plUrl pl.discontinuitySequence
      pl.segments pl.mediaSequence 0 Encryption.none st
    obtain ⟨ih1, ih2⟩ := ih (walkPlaylist stream plUrl pl st).2
    have hlast := walkSegs_lastSeg_eq stream plUrl pl.discontinuitySequence pl.segments
      pl.mediaSequence 0 Encryption.none st
    rw [pollIterations_cons]
    have hAcross : liveAcross (pl :: rest) st.lastSeg =
        (liveSegs pl.discontinuitySequence pl.segments pl.mediaSequence 0 st.lastSeg).1 ++
          liveAcross rest
            (liveSegs pl.discontinuitySequence pl.segments pl.mediaSequence 0
              st.lastSeg).2 := rfl
    rw [hAcross, firstMap_append]
    have w1' : List.filter isInitEmit (walkPlaylist stream plUrl pl st).1 =
        (if st.initDownloaded then []
         else
           match firstMap (liveSegs pl.discontinuitySequence pl.segments pl.mediaSequence 0
               st.lastSeg).1 with
           | Option.some m => [mkInitEmit stream plUrl m]
           | Option.none => []) := w1
    have w2' : (walkPlaylist stream plUrl pl st).2.initDownloaded =
        (st.initDownloaded ||
          (firstMap (liveSegs pl.discontinuitySequence pl.segments pl.mediaSequence 0
            st.lastSeg).1).isSome) := w2
    have hlast' : (walkPlaylist stream plUrl pl st).2.lastSeg =
        (liveSegs pl.discontinuitySequence pl.segments pl.mediaSequence 0 st.lastSeg).2 :=
      hlast
    rw [w2', hlast'] at ih1 ih2
    constructor
    · rw [List.filter_append, w1', ih1]
      cases hsd : st.initDownloaded with
      | true => simp
      | false =>
        cases hw : firstMap (liveSegs pl.discontinuitySequence pl.segments
            pl.mediaSequence 0 st.lastSeg).1 with
        | some mp => simp
        | none => simp
    · rw [ih2]
      cases hsd : st.initDownloaded with
      | true => simp
      | false =>
        cases hw : firstMap (liveSegs pl.discontinuitySequence pl.segments
            pl.mediaSequence 0 st.lastSeg).1 with
        | some mp => simp
        | none => simp

/-- C8: over the poller's entire lifetime at most one Initialization
request is emitted per stream — the emitted initialization requests are
exactly one request built from the first initialization metadata among
all non-skipped segments (none when no non-skipped segment carries
metadata); every initialization request carries the `Encryption.none`
context; and once the initialization-sent flag is set, no later
segment's metadata triggers any emission. -/
theorem poller_init_once (stream : Stream) (plUrl : Url) (pls : List MediaPlaylist)
    (last : Option (Nat × Nat)) :
    initCount (pollIterations stream plUrl pls ⟨last, false⟩).1 ≤ 1 ∧
    ((pollIterations stream plUrl pls ⟨last, false⟩).1.filter isInitEmit =
      (match firstMap (liveAcross pls last) with
        | Option.some m => [mkInitEmit stream plUrl m]
        | Option.none => [])) ∧
    (∀ st : WalkState, st.initDownloaded = true →
      initCount (pollIterations stream plUrl pls st).1 = 0) ∧
    (∀ st : WalkState, ∀ e ∈ (pollIterations stream plUrl pls st).1,
      isInitEmit e = true → encOf e = Encryption.none) := by
  have h := (pollIterations_init_spec stream plUrl pls ⟨last, false⟩).1
  simp only [Bool.false_eq_true, if_false] at h
  refine ⟨?_, h, ?_, fun st => pollIterations_init_enc stream plUrl pls st⟩
  · unfold initCount
    rw [h]
    cases firstMap (liveAcross pls last) <;> simp
  · intro st hst
    have h' := (pollIterations_init_spec stream plUrl pls st).1
    rw [hst] at h'
    simp only [if_true] at h'
    unfold initCount
    rw [h']
    rfl

/-- C8 witness: a poller whose initialization flag is already set emits
zero initialization requests over playlist `plM`, although both of its
segments carry initialization metadata. -/
theorem poller_init_once_witness :
    initCount (pollIterations Stream.main ['u'] [plM] ⟨Option.none, true⟩).1 = 0 :=
  (poller_init_once Stream.main ['u'] [plM] Option.none).2.2.1 ⟨Option.none, true⟩ rfl

/-- Helper: from a stopped state, no trace of operations ever clears the
flag. -/
theorem runStops_true : ∀ ops : List StopOp, runStops true ops = true
  | [] => rfl
  | op :: rest => by
      cases op <;> simpa [runStops, stepStop] using runStops_true rest

/-- C9: the Stopper's stopped state is irreversible and shared: from a
stopped state every trace leaves the flag set; a duplicated `stop()`
anywhere in a trace does not change the outcome (idempotence); every
clone reads the same shared flag; and after a `stop()` every later
`stopped()` on any clone returns `true`. -/
theorem stopper_stop_irreversible :
    (∀ ops : List StopOp, runStops true ops = true) ∧
    (∀ (s : Bool) (pre post : List StopOp),
      runStops s (pre ++ StopOp.stop :: StopOp.stop :: post) =
        runStops s (pre ++ StopOp.stop :: post)) ∧
    (∀ (shared : Bool) (c c' : Nat), stoppedRead shared c = stoppedRead shared c') ∧
    (∀ (s : Bool) (ops : List StopOp) (c : Nat),
      stoppedRead (runStops s (StopOp.stop :: ops)) c = true) := by
  refine ⟨runStops_true, ?_, fun _ _ _ => rfl, ?_⟩
  · intro s pre post
    induction pre generalizing s with
    | nil => simp [runStops, stepStop, runStops_true]
    | cons op rest ih => simp [runStops, ih]
  · intro s ops c
    simp [stoppedRead, runStops, stepStop, runStops_true]

/-- C6 counterexample: for a byte range with offset 5 and length 0 the
code attaches `bytes=5-5` (saturating subtraction), while the claim's
formula `bytes=<offset>-<offset+length-1>` gives `bytes=5-4`. -/
theorem byte_range_zero_length_counterexample :
    Segment.byteRangeStr (.sequence [] (Option.some ⟨0, Option.some 5⟩) 0 0) ≠
      Option.some (specRangeStr ⟨0, Option.some 5⟩) := by decide

/-- C6 (amended): the Range header value is
`bytes=<offset>-<offset + (length ∸ 1)>` with saturating subtraction and
the offset defaulting to 0 — equal to the claim's
`bytes=<offset>-<offset+length-1>` whenever `length ≥ 1`, and equal to
`bytes=<offset>-<offset>` when `length = 0`; segments with no byte range
attach no Range header. -/
theorem byte_range_header_spec (u : Url) (br : ByteRange) (d s : Nat) :
    (1 ≤ br.length →
      Segment.byteRangeStr (.sequence u (Option.some br) d s) =
          Option.some (specRangeStr br) ∧
        Segment.byteRangeStr (.initialization u (Option.some br)) =
          Option.some (specRangeStr br)) ∧
    (br.length = 0 →
      Segment.byteRangeStr (.sequence u (Option.some br) d s) =
        Option.some (bytesHeader (br.offset.getD 0) (br.offset.getD 0))) ∧
    Segment.byteRangeStr (.sequence u Option.none d s) = Option.none ∧
    Segment.byteRangeStr (.initialization u Option.none) = Option.none := by
  refine ⟨?_, ?_, rfl, rfl⟩
  · intro h
    have he : br.offset.getD 0 + (br.length - 1) = br.offset.getD 0 + br.length - 1 := by
      omega
    constructor <;> simp [Segment.byteRangeStr, specRangeStr, he]
  · intro h
    simp [Segment.byteRangeStr, h]

/-- C6 witness: the amended header formula applied at offset 2,
length 5. -/
theorem byte_range_header_spec_witness :
    Segment.byteRangeStr (.sequence [] (Option.some ⟨5, Option.some 2⟩) 0 0) =
      Option.some (specRangeStr ⟨5, Option.some 2⟩) :=
  ((byte_range_header_spec [] ⟨5, Option.some 2⟩ 0 0).1 (by decide)).1

/-- C2 counterexample: with two variants both declaring bandwidth 100,
the resolver selects the second one — the last in source order, not the
first. -/
theorem variant_tie_counterexample :
    selectVariant [vA, vB] = Option.some vB ∧ vB ≠ vA := by decide

/-- Helper: `foldl pickMax` returns an element whose key bounds every
key in the list, positioned so that everything after it has a strictly
smaller key (the last maximal element). -/
theorem foldl_pickMax_spec :
    ∀ (xs : List (Nat × VariantStream)) (x : Nat × VariantStream),
      (∀ p ∈ x :: xs, p.1 ≤ (xs.foldl pickMax x).1) ∧
      ∃ l₁ l₂, x :: xs = l₁ ++ (xs.foldl pickMax x) :: l₂ ∧
        ∀ p ∈ l₂, p.1 < (xs.foldl pickMax x).1
  | [], x => by
      refine ⟨?_, [], [], rfl, ?_⟩ <;> simp
  | y :: ys, x => by
      obtain ⟨ihb, l₁, l₂, ihsplit, ihlt⟩ := foldl_pickMax_spec ys (pickMax x y)
      have hfold : (y :: ys).foldl pickMax x = ys.foldl pickMax (pickMax x y) := rfl
      rw [hfold]
      by_cases hxy : x.1 > y.1
      · have hp : pickMax x y = x := by simp [pickMax, hxy]
        rw [hp]
        rw [hp] at ihb ihsplit ihlt
        refine ⟨?_, ?_⟩
        · intro p hp'
          rcases List.mem_cons.mp hp' with h | h
          · rw [h]; exact ihb x (List.mem_cons_self _ _)
          rcases List.mem_cons.mp h with h | h
          · have hx := ihb x (List.mem_cons_self _ _)
            rw [h]; omega
          · exact ihb p (List.mem_cons_of_mem _ h)
        · cases l₁ with
          | nil =>
            simp only [List.nil_append] at ihsplit
            obtain ⟨hx, hys⟩ := List.cons_eq_cons.mp ihsplit
            refine ⟨[], y :: ys, ?_, ?_⟩
            · simp only [List.nil_append]
              rw [← hx]
            · intro p hp'
              rcases List.mem_cons.mp hp' with h | h
              · rw [h, ← hx]; exact hxy
              · exact ihlt p (hys ▸ h)
          | cons a t =>
            obtain ⟨ha, hys⟩ := List.cons_eq_cons.mp ihsplit
            refine ⟨x :: y :: t, l₂, ?_, ihlt⟩
            rw [List.cons_append, List.cons_append]
            exact congrArg (fun l => x :: y :: l) hys
      · have hp : pickMax x y = y := by simp [pickMax, hxy]
        rw [hp]
        rw [hp] at ihb ihsplit ihlt
        refine ⟨?_, ?_⟩
        · intro p hp'
          rcases List.mem_cons.mp hp' with h | h
          · have hy := ihb y (List.mem_cons_self _ _)
            rw [h]; omega
          · exact ihb p h
        · exact ⟨x :: l₁, l₂, by simp [ihsplit], ihlt⟩

/-- C2 (amended): whenever some variant has a parsable bandwidth, the
resolver registers as Main a variant whose parsed bandwidth is the
maximum over all parsable variants; when several variants share that
maximum, the one appearing **last** in source order is selected
(`Iterator::max_by_key` keeps the last maximal element). -/
theorem select_variant_max_last (vs : List VariantStream)
    (h : parsedVariants vs ≠ []) :
    ∃ (b : Nat) (v : VariantStream) (l₁ l₂ : List (Nat × VariantStream)),
      selectVariant vs = Option.some v ∧
      parseU64 v.bandwidth = Option.some b ∧
      parsedVariants vs = l₁ ++ (b, v) :: l₂ ∧
      (∀ p ∈ parsedVariants vs, p.1 ≤ b) ∧
      (∀ p ∈ l₂, p.1 < b) := by
  obtain ⟨x, xs, hcons⟩ := List.exists_cons_of_ne_nil h
  obtain ⟨hb, l₁, l₂, hsplit, hlt⟩ := foldl_pickMax_spec xs x
  set r := xs.foldl pickMax x with hr
  have hsel : selectVariant vs = Option.some r.2 := by
    simp [selectVariant, maxByKeyLast, hcons, ← hr]
  have hmem : (r.1, r.2) ∈ parsedVariants vs := by
    rw [hcons, hsplit]
    simp
  have hparse : parseU64 r.2.bandwidth = Option.some r.1 := by
    obtain ⟨v', hv', heq⟩ := List.mem_filterMap.mp hmem
    cases hpv : parseU64 v'.bandwidth with
    | none => rw [hpv] at heq; simp at heq
    | some b' =>
      rw [hpv] at heq
      simp only [Option.map_some'] at heq
      have heq2 : (b', v') = (r.1, r.2) := Option.some.inj heq
      have h1 : b' = r.1 := congrArg Prod.fst heq2
      have h2 : v' = r.2 := congrArg Prod.snd heq2
      rw [← h2, hpv, h1]
  refine ⟨r.1, r.2, l₁, l₂, hsel, hparse, ?_, ?_, hlt⟩
  · rw [hcons, hsplit]
  · intro p hp
    rw [hcons] at hp
    exact hb p (hsplit ▸ hp)

/-- C2 witness: the amended selection applied to the spec's example
bandwidths 500000, 1200000, 800000 — the 1200000 variant is selected. -/
theorem select_variant_max_last_witness :
    selectVariant
        [⟨['a'], ['5', '0', '0', '0', '0', '0'], Option.none, Option.none, Option.none⟩,
         ⟨['b'], ['1', '2', '0', '0', '0', '0', '0'], Option.none, Option.none, Option.none⟩,
         ⟨['c'], ['8', '0', '0', '0', '0', '0'], Option.none, Option.none, Option.none⟩] =
      Option.some ⟨['b'], ['1', '2', '0', '0', '0', '0', '0'], Option.none, Option.none,
        Option.none⟩ := by
  obtain ⟨b, v, l₁, l₂, hsel, hparse, hsplitq, hub, hlt⟩ :=
    select_variant_max_last
      [⟨['a'], ['5', '0', '0', '0', '0', '0'], Option.none, Option.none, Option.none⟩,
       ⟨['b'], ['1', '2', '0', '0', '0', '0', '0'], Option.none, Option.none, Option.none⟩,
       ⟨['c'], ['8', '0', '0', '0', '0', '0'], Option.none, Option.none, Option.none⟩]
      (by decide)
  rw [hsel]
  have : selectVariant
      [⟨['a'], ['5', '0', '0', '0', '0', '0'], Option.none, Option.none, Option.none⟩,
       ⟨['b'], ['1', '2', '0', '0', '0', '0', '0'], Option.none, Option.none, Option.none⟩,
       ⟨['c'], ['8', '0', '0', '0', '0', '0'], Option.none, Option.none, Option.none⟩] =
      Option.some ⟨['b'], ['1', '2', '0', '0', '0', '0', '0'], Option.none, Option.none,
        Option.none⟩ := by decide
  rw [hsel] at this
  exact this

/-- C5: the byte buffer a sequence save writes to its file is exactly
the cached initialization bytes followed by the segment bytes when the
stream has cached initialization bytes, and exactly the segment bytes
otherwise — concatenation with no additional framing. -/
theorem save_sequence_bytes (detect : Bytes → Except Str MediaFormat) (fsOk : Str → Bool)
    (dir : Str) (stream : Stream) (u : Url) (br : Option ByteRange) (d s : Nat)
    (bytes : Bytes) (st st' : SaveState) :
    (∀ init, lookupA st.initMap stream = Option.some init →
      saveSegment detect fsOk dir (stream, .sequence u br d s, bytes) st = .ok st' →
      ∃ p, st'.files = st.files ++ [(p, init ++ bytes)]) ∧
    (lookupA st.initMap stream = Option.none →
      saveSegment detect fsOk dir (stream, .sequence u br d s, bytes) st = .ok st' →
      ∃ p, st'.files = st.files ++ [(p, bytes)]) := by
  constructor
  · intro init hlook hsave
    simp only [saveSegment, hlook] at hsave
    split at hsave
    · exact Except.noConfusion hsave
    · split at hsave
      · have hst := Except.ok.inj hsave
        exact ⟨_, (congrArg SaveState.files hst).symm⟩
      · exact Except.noConfusion hsave
  · intro hlook hsave
    simp only [saveSegment, hlook] at hsave
    split at hsave
    · exact Except.noConfusion hsave
    · split at hsave
      · have hst := Except.ok.inj hsave
        exact ⟨_, (congrArg SaveState.files hst).symm⟩
      · exact Except.noConfusion hsave

/-- C5 witness: saving bytes `[3, 4]` for the main stream with cached
initialization bytes `[1, 2]` writes the file `[1, 2] ++ [3, 4]`. -/
theorem save_sequence_bytes_witness :
    ∃ p, stW.files = st₀.files ++ [(p, [1, 2] ++ [3, 4])] :=
  (save_sequence_bytes detectTs fsAll ['o'] Stream.main [] Option.none 0 0 [3, 4]
      st₀ stW).1 [1, 2] rfl rfl

/-- Helper: an entry of the manifest after `pushEntry` was already there
or is the pushed entry. -/
theorem manifestPairs_pushEntry (s : Stream) (v : Segment × Str) :
    ∀ (m : List (Stream × List (Segment × Str))) (e : Stream × Segment × Str),
      e ∈ manifestPairs (pushEntry s v m) → e ∈ manifestPairs m ∨ e = (s, v.1, v.2)
  | [], e => by
      simp [pushEntry, manifestPairs]
  | (k, l) :: rest, e => by
      simp only [pushEntry]
      by_cases hk : k = s
      · rw [if_pos hk]
        simp only [manifestPairs, List.map_append, List.mem_append]
        intro h
        rcases h with (h | h) | h
        · exact Or.inl (Or.inl h)
        · simp only [List.map_cons, List.map_nil, List.mem_singleton] at h
          subst hk
          exact Or.inr (by rw [h])
        · exact Or.inl (Or.inr h)
      · rw [if_neg hk]
        simp only [manifestPairs, List.mem_append]
        intro h
        rcases h with h | h
        · exact Or.inl (Or.inl h)
        · rcases manifestPairs_pushEntry s v rest e h with h | h
          · exact Or.inl (Or.inr h)
          · exact Or.inr h

/-- C10: saving an Initialization segment only updates the per-stream
initialization cache — the files written and the manifest are returned
unchanged — and any entry a successful save can add to the manifest is a
Sequence entry, so every `(Segment, file_path)` pair the manifest
accumulates over a run is a Sequence pair. -/
theorem save_init_frame (detect : Bytes → Except Str MediaFormat) (fsOk : Str → Bool)
    (dir : Str) :
    (∀ (stream : Stream) (u : Url) (br : Option ByteRange) (bytes : Bytes) (st : SaveState),
      saveSegment detect fsOk dir (stream, .initialization u br, bytes) st =
        .ok { st with initMap := insertA stream bytes st.initMap }) ∧
    (∀ (x : SegmentIdData) (st st' : SaveState),
      saveSegment detect fsOk dir x st = .ok st' →
      ∀ e ∈ manifestPairs st'.manifest,
        e ∈ manifestPairs st.manifest ∨ isSeqSegment e.2.1 = true) := by
  constructor
  · intro stream u br bytes st
    rfl
  · rintro ⟨stream, seg, bytes⟩ st st' hsave e he
    cases seg with
    | initialization u br =>
      have hst : { st with initMap := insertA stream bytes st.initMap } = st' :=
        Except.ok.inj hsave
      rw [← hst] at he
      exact Or.inl he
    | sequence u br d s =>
      simp only [saveSegment] at hsave
      split at hsave
      · exact Except.noConfusion hsave
      · split at hsave
        · have hst := Except.ok.inj hsave
          rw [← hst] at he
          rcases manifestPairs_pushEntry _ _ _ _ he with h | h
          · exact Or.inl h
          · right
            rw [h]
            rfl
        · exact Except.noConfusion hsave

/-- C10 witness: the one entry of the fixture manifest after a sequence
save from `st₀` is a Sequence entry. -/
theorem save_init_frame_witness :
    (Stream.main, Segment.sequence [] Option.none 0 0, pathW) ∈ manifestPairs st₀.manifest ∨
      isSeqSegment (Segment.sequence [] Option.none 0 0) = true :=
  (save_init_frame detectTs fsAll ['o']).2
    (Stream.main, Segment.sequence [] Option.none 0 0, [3, 4]) st₀ stW rfl
    (Stream.main, Segment.sequence [] Option.none 0 0, pathW) (by decide)

/-- C1 counterexample: with a failed fetch followed by a completed one,
the consumer loop returns the fetch error — the run halts there, the
later completed fetch is not processed, no warning is recorded, and the
segment simply never reaches the writer. -/
theorem fetch_error_halts_counterexample :
    downloadLoop detectTs fsAll ['o']
        [Except.error ['b'], Except.ok okItem] ⟨[], [], []⟩ [] =
      Except.error ['b'] := rfl

/-- C1 (amended): a segment whose fetch or decryption fails after
retries is fatal to the download run — the consumer loop propagates the
first fetch error (`let id_data = x?`) and stops; it is a failed *save*
that is recorded as a warning, dropped, and does not halt the loop. -/
theorem fetch_error_propagates (detect : Bytes → Except Str MediaFormat) (fsOk : Str → Bool)
    (dir : Str) :
    (∀ (xs ys : List (Except Str SegmentIdData)) (e : Str) (st : SaveState) (w : List Str),
      (∀ x ∈ xs, ∃ v, x = Except.ok v) →
      downloadLoop detect fsOk dir (xs ++ Except.error e :: ys) st w = Except.error e) ∧
    (∀ (v : SegmentIdData) (rest : List (Except Str SegmentIdData)) (st : SaveState)
        (w : List Str) (er : Str),
      saveSegment detect fsOk dir v st = Except.error er →
      downloadLoop detect fsOk dir (Except.ok v :: rest) st w =
        downloadLoop detect fsOk dir rest st (w ++ [warnMsg v.2.1 er])) := by
  constructor
  · intro xs
    induction xs with
    | nil =>
      intro ys e st w _
      rfl
    | cons x rest ih =>
      intro ys e st w hxs
      obtain ⟨v, hv⟩ := hxs x (List.mem_cons_self _ _)
      subst hv
      rw [List.cons_append]
      cases hs : saveSegment detect fsOk dir v st with
      | ok st' =>
        simp only [downloadLoop, hs]
        exact ih ys e st' w (fun x hx => hxs x (List.mem_cons_of_mem _ hx))
      | error er =>
        simp only [downloadLoop, hs]
        exact ih ys e st (w ++ [warnMsg v.2.1 er])
          (fun x hx => hxs x (List.mem_cons_of_mem _ hx))
  · intro v rest st w er hs
    simp only [downloadLoop, hs]

/-- C1 witness: the amended propagation applied to one completed fetch
followed by a failed one. -/
theorem fetch_error_propagates_witness :
    downloadLoop detectTs fsAll ['o'] [Except.ok okItem, Except.error ['b']] st₀ [] =
      Except.error ['b'] :=
  (fetch_error_propagates detectTs fsAll ['o']).1 [Except.ok okItem] [] ['b'] st₀ []
    (by
      intro x hx
      rw [List.mem_singleton] at hx
      exact ⟨okItem, hx⟩)

/-- Helper: unfolding of `lexLtB` on two cons cells. -/
theorem lexLtB_cons (x y : Char) (l₁ l₂ : List Char) :
    lexLtB (x :: l₁) (y :: l₂) =
      if x < y then true else if x = y then lexLtB l₁ l₂ else false := rfl

/-- Helper: `lexLtB` is irreflexive. -/
theorem lexLtB_self : ∀ l : List Char, lexLtB l l = false
  | [] => rfl
  | c :: rest => by
      rw [lexLtB_cons, if_neg (lt_irrefl c), if_pos rfl]
      exact lexLtB_self rest

/-- Helper: a common prefix does not affect `lexLtB`. -/
theorem lexLtB_append_left (p : List Char) :
    ∀ l₁ l₂ : List Char, lexLtB (p ++ l₁) (p ++ l₂) = lexLtB l₁ l₂ := by
  induction p with
  | nil =>
    intro l₁ l₂
    rfl
  | cons c rest ih =>
    intro l₁ l₂
    rw [List.cons_append, List.cons_append, lexLtB_cons, if_neg (lt_irrefl c), if_pos rfl]
    exact ih l₁ l₂

/-- Helper: comparison of numbers through one division/remainder step. -/
theorem div_mod_lt_iff (K a b : Nat) (hK : 0 < K) :
    a < b ↔ (a / K < b / K ∨ (a / K = b / K ∧ a % K < b % K)) := by
  constructor
  · intro hab
    rcases Nat.lt_or_ge (a / K) (b / K) with h | h
    · exact Or.inl h
    · have heq : a / K = b / K :=
        Nat.le_antisymm (Nat.div_le_div_right (Nat.le_of_lt hab)) h
      refine Or.inr ⟨heq, ?_⟩
      have e1 := Nat.div_add_mod a K
      have e2 := Nat.div_add_mod b K
      rw [heq] at e1
      have hsum : K * (b / K) + a % K < K * (b / K) + b % K := by
        rw [e1, e2]
        exact hab
      exact Nat.lt_of_add_lt_add_left hsum
  · intro h
    rcases h with h | ⟨heq, hmod⟩
    · calc a = K * (a / K) + a % K := (Nat.div_add_mod a K).symm
        _ < K * (a / K) + K := Nat.add_lt_add_left (Nat.mod_lt a hK) _
        _ = K * (a / K + 1) := (Nat.mul_succ K (a / K)).symm
        _ ≤ K * (b / K) := Nat.mul_le_mul_left K (Nat.succ_le_of_lt h)
        _ ≤ K * (b / K) + b % K := Nat.le_add_right _ _
        _ = b := Nat.div_add_mod b K
    · have e1 := Nat.div_add_mod a K
      have e2 := Nat.div_add_mod b K
      rw [heq] at e1
      have hsum : K * (b / K) + a % K < K * (b / K) + b % K :=
        Nat.add_lt_add_left hmod _
      rw [e1, e2] at hsum
      exact hsum

/-- Helper: `digitChar` is strictly monotone on digits. -/
theorem digitChar_lt_iff {a b : Nat} (ha : a < 10) (hb : b < 10) :
    (digitChar a < digitChar b) ↔ a < b := by
  interval_cases a <;> interval_cases b <;> decide

/-- Helper: `digitChar` is injective on digits. -/
theorem digitChar_eq_iff {a b : Nat} (ha : a < 10) (hb : b < 10) :
    (digitChar a = digitChar b) ↔ a = b := by
  interval_cases a <;> interval_cases b <;> decide

/-- Helper: comparing two width-`k` zero-padded decimals (with equal-
shape tails) is comparing the numbers, falling through to the tails on
equality. -/
theorem lexLtB_padDec (k : Nat) :
    ∀ (a b : Nat) (r₁ r₂ : List Char), a < 10 ^ k → b < 10 ^ k →
      lexLtB (padDec k a ++ r₁) (padDec k b ++ r₂) =
        (if a < b then true else if a = b then lexLtB r₁ r₂ else false) := by
  induction k with
  | zero =>
    intro a b r₁ r₂ ha hb
    have ha' : a = 0 := by simpa using ha
    have hb' : b = 0 := by simpa using hb
    subst ha'
    subst hb'
    simp [padDec]
  | succ k ih =>
    intro a b r₁ r₂ ha hb
    have hK : 0 < 10 ^ k := pow_pos (by norm_num) k
    have hpow : 10 ^ (k + 1) = 10 ^ k * 10 := pow_succ 10 k
    have hda : a / 10 ^ k < 10 := by
      rw [Nat.div_lt_iff_lt_mul hK]
      rw [hpow] at ha
      rw [Nat.mul_comm]
      exact ha
    have hdb : b / 10 ^ k < 10 := by
      rw [Nat.div_lt_iff_lt_mul hK]
      rw [hpow] at hb
      rw [Nat.mul_comm]
      exact hb
    simp only [padDec, List.cons_append, lexLtB_cons]
    rw [ih (a % 10 ^ k) (b % 10 ^ k) r₁ r₂ (Nat.mod_lt a hK) (Nat.mod_lt b hK)]
    simp only [digitChar_lt_iff hda hdb, digitChar_eq_iff hda hdb]
    rcases Nat.lt_trichotomy a b with hab | hab | hab
    · rw [if_pos hab]
      rcases (div_mod_lt_iff (10 ^ k) a b hK).mp hab with h | ⟨h, h'⟩
      · rw [if_pos h]
      · have hnd : ¬ (a / 10 ^ k < b / 10 ^ k) := by
          rw [h]
          exact Nat.lt_irrefl _
        rw [if_neg hnd, if_pos h, if_pos h']
    · subst hab
      simp
    · have hne : a ≠ b := by omega
      have hnl : ¬ a < b := by omega
      rw [if_neg hnl, if_neg hne]
      rcases (div_mod_lt_iff (10 ^ k) b a hK).mp hab with h | ⟨h, h'⟩
      · have hnd : ¬ (a / 10 ^ k < b / 10 ^ k) := Nat.lt_asymm h
        have hned : a / 10 ^ k ≠ b / 10 ^ k := by
          intro he
          rw [he] at h
          exact Nat.lt_irrefl _ h
        rw [if_neg hnd, if_neg hned]
      · have heqd : a / 10 ^ k = b / 10 ^ k := h.symm
        have hnd : ¬ (a / 10 ^ k < b / 10 ^ k) := by
          rw [heqd]
          exact Nat.lt_irrefl _
        have hnm : ¬ (a % 10 ^ k < b % 10 ^ k) := Nat.lt_asymm h'
        have hnem : a % 10 ^ k ≠ b % 10 ^ k := by
          intro he
          rw [he] at h'
          exact Nat.lt_irrefl _ h'
        rw [if_neg hnd, if_pos heqd, if_neg hnm, if_neg hnem]

/-- Helper: digit-count bound — a number below `10 ^ k` has at most `k`
decimal digits. -/
theorem numDigitsAux_le : ∀ (fuel n k : Nat), n ≤ fuel → 0 < k → n < 10 ^ k →
    numDigitsAux fuel n ≤ k
  | 0, n, k, _, hk, _ => by
      simpa [numDigitsAux] using hk
  | fuel + 1, n, k, hf, hk, hn => by
      simp only [numDigitsAux]
      split
      · exact hk
      · rename_i h10
        have hk2 : 2 ≤ k := by
          by_contra hlt
          have hk1 : k = 1 := by omega
          subst hk1
          simp only [pow_one] at hn
          exact h10 hn
        have hdiv : n / 10 < 10 ^ (k - 1) := by
          rw [Nat.div_lt_iff_lt_mul (by norm_num)]
          have hp : 10 ^ (k - 1) * 10 = 10 ^ k := by
            rw [← pow_succ]
            congr 1
            omega
          rw [hp]
          exact hn
        have hfc : n / 10 ≤ fuel := by
          have := Nat.div_lt_self (by omega : 0 < n) (by norm_num : 1 < 10)
          omega
        have hrec := numDigitsAux_le fuel (n / 10) (k - 1) hfc (by omega) hdiv
        omega

/-- Helper: below `10 ^ 10` the `{:010}` rendering is the width-10
zero-padded decimal. -/
theorem fmt010_eq_padDec {n : Nat} (h : n < 10 ^ 10) : fmt010 n = padDec 10 n := by
  unfold fmt010 numDigits
  have hle : numDigitsAux n n ≤ 10 :=
    numDigitsAux_le n n 10 (Nat.le_refl n) (by norm_num) h
  rw [Nat.max_eq_left hle]

/-- C4 counterexample: at sequence numbers 9999999999 and 10000000000
(both valid `u64` values, same stream and format) the claimed
equivalence fails — the ordering key increases while the file name,
whose second component outgrows the 10-digit zero padding, sorts the
other way. -/
theorem filename_order_counterexample :
    keyLt (0, 9999999999) (0, 10000000000) ∧
    lexLtB (fileName Stream.main 0 9999999999 ['t', 's'])
        (fileName Stream.main 0 10000000000 ['t', 's']) = false ∧
    lexLtB (fileName Stream.main 0 10000000000 ['t', 's'])
        (fileName Stream.main 0 9999999999 ['t', 's']) = true := by decide

/-- C4 (amended): for any two sequence segments of the same stream and
format whose key components are below `10 ^ 10` (ten decimal digits, the
zero-padding width), the lexicographic order of their on-disk file names
equals the lexicographic order of their ordering keys. For components at
or above `10 ^ 10` the rendering outgrows the padding and the
equivalence fails. -/
theorem filename_order (stream : Stream) (ext : Str) (d₁ s₁ d₂ s₂ : Nat)
    (hd₁ : d₁ < 10 ^ 10) (hs₁ : s₁ < 10 ^ 10) (hd₂ : d₂ < 10 ^ 10) (hs₂ : s₂ < 10 ^ 10) :
    lexLtB (fileName stream d₁ s₁ ext) (fileName stream d₂ s₂ ext) = true ↔
      keyLt (d₁, s₁) (d₂, s₂) := by
  have hshape : ∀ d s : Nat,
      fileName stream d s ext =
        (['s', 'e', 'g', 'm', 'e', 'n', 't', '_'] ++ stream.displayStr ++ ['_', 'd']) ++
          (fmt010 d ++ 's' :: (fmt010 s ++ '.' :: ext)) := by
    intro d s
    simp [fileName, Segment.idStr, List.append_assoc]
  rw [hshape, hshape, lexLtB_append_left, fmt010_eq_padDec hd₁, fmt010_eq_padDec hd₂,
    fmt010_eq_padDec hs₁, fmt010_eq_padDec hs₂,
    lexLtB_padDec 10 d₁ d₂ _ _ hd₁ hd₂, lexLtB_cons, if_neg (lt_irrefl 's'), if_pos rfl,
    lexLtB_padDec 10 s₁ s₂ _ _ hs₁ hs₂, lexLtB_self]
  unfold keyLt
  split_ifs <;> simp <;> omega

/-- C4 witness: the amended equivalence applied at keys `(0, 1)` and
`(0, 2)`. -/
theorem filename_order_witness :
    lexLtB (fileName Stream.main 0 1 ['t', 's']) (fileName Stream.main 0 2 ['t', 's']) =
        true ↔ keyLt (0, 1) (0, 2) :=
  filename_order Stream.main ['t', 's'] 0 1 0 2 (by norm_num) (by norm_num) (by norm_num)
    (by norm_num)

end LSDL
